import Mathlib

/-!
Verification development for the SteamBubbles repository
(`steam-bubbles/src/App.tsx`, `steam-bubbles/src/BubbleChart.tsx`).

The TypeScript core is shallowly embedded:
* JS numbers holding game hours / coordinates are modelled as `Rat`
  (float arithmetic read as exact arithmetic on the rationals);
* 32-bit integer operations of the deterministic RNG are modelled as `Nat`
  arithmetic taken `% 2 ^ 32`;
* the JS object used as the merge map (`Record<number, number>`) is modelled
  as an association list with first-match lookup, which matches object-key
  semantics for the operations the code performs;
* the `while` loop of `findMergeRoot` is modelled by structural recursion on
  a fuel argument instantiated with `m.length + 1`; the loop body adds one
  distinct key of the map to `seen` per iteration, so this fuel is never
  exhausted (proved below together with the step-count bound).
-/

namespace SteamBubbles

/-- A visualized item; mirrors `GameViz` from `BubbleChart.tsx` restricted to
the fields the aggregation logic reads (`appid`, `name`, `hours`, `manual`);
the derived display strings `img`/`storeUrl` never feed back into
aggregation or layout and are omitted. -/
structure Item where
  appid : Nat
  name : String
  hours : Rat
  manual : Bool
  deriving DecidableEq, Repr

/-- The merge mapping `Record<number, number>` of `App.tsx` (`mergeMap`),
keyed by the `from` id of each edge. -/
abbrev MergeMap := List (Nat × Nat)

/-- Association-list lookup with first-match semantics; models reading
`map[key]` on the JS object. -/
def alookup {β : Type} (l : List (Nat × β)) (k : Nat) : Option β :=
  match l with
  | [] => none
  | (a, b) :: t => if a = k then some b else alookup t k

/-- Body of `findMergeRoot` (`App.tsx` lines 145-153):
`while (map[cur] != null && !seen.has(cur)) { seen.add(cur); cur = map[cur] }`.
The fuel argument only makes the recursion structural; `findMergeRoot` below
instantiates it with `m.length + 1`, which is proved sufficient. -/
def rootAux (m : MergeMap) : Nat → List Nat → Nat → Nat
  | 0, _, cur => cur
  | fuel + 1, seen, cur =>
    match alookup m cur with
    | none => cur
    | some nxt => if cur ∈ seen then cur else rootAux m fuel (cur :: seen) nxt

/-- The merge-root resolver `findMergeRoot(appid, map)` of `App.tsx`. -/
def findMergeRoot (m : MergeMap) (appid : Nat) : Nat :=
  rootAux m (m.length + 1) [] appid

/-- Instrumented version of `rootAux` that also returns the list of nodes the
loop visited (the nodes added to `seen`), in visit order. -/
def rootAuxT (m : MergeMap) : Nat → List Nat → Nat → Nat × List Nat
  | 0, _, cur => (cur, [])
  | fuel + 1, seen, cur =>
    match alookup m cur with
    | none => (cur, [])
    | some nxt =>
      if cur ∈ seen then (cur, [])
      else
        let p := rootAuxT m fuel (cur :: seen) nxt
        (p.1, cur :: p.2)

/-- Visited trace of a top-level `findMergeRoot` run. -/
def rootTrace (m : MergeMap) (appid : Nat) : Nat × List Nat :=
  rootAuxT m (m.length + 1) [] appid

/-- Following merge edges exactly `k` steps from `a`; `none` when a node with
no outgoing edge is hit before `k` steps have been taken. -/
def stepN (m : MergeMap) : Nat → Nat → Option Nat
  | 0, a => some a
  | k + 1, a =>
    match alookup m a with
    | none => none
    | some b => stepN m k b

/-- Node `b` is reached from `a` by following merge edges. -/
def Reaches (m : MergeMap) (a b : Nat) : Prop :=
  ∃ k, stepN m k a = some b

/-- Validity of a merge mapping as the spec describes it (an acyclic forest):
resolving any key of the mapping ends at a node with no outgoing edge.  A
mapping containing a cycle violates this, because the cycle guard then stops
at a revisited node, which still has an outgoing edge. -/
def ValidMergeMap (m : MergeMap) : Prop :=
  ∀ k ∈ m.map Prod.fst, alookup m (findMergeRoot m k) = none

instance (m : MergeMap) : Decidable (ValidMergeMap m) :=
  inferInstanceAs (Decidable (∀ k ∈ m.map Prod.fst, alookup m (findMergeRoot m k) = none))

/-- The JS spread update `{ ...mergeMap, [mergeFrom]: mergeTo }`: replaces the
value in place when the key exists (object key order is preserved), appends a
new entry otherwise. -/
def insertEdge (m : MergeMap) (src dst : Nat) : MergeMap :=
  if (alookup m src).isSome then
    m.map (fun p => if p.1 = src then (src, dst) else p)
  else m ++ [(src, dst)]

/-- Outcome of one `addMerge` invocation: `noop` is the silent early return
(no error message, state untouched), `loopError` the `setError("That merge
would create a loop.")` branch (state untouched), `committed m` the
`setMergeMap` commit producing the new map `m`. -/
inductive MergeOutcome where
  | noop : MergeOutcome
  | loopError : MergeOutcome
  | committed : MergeMap → MergeOutcome
  deriving DecidableEq, Repr

/-- The `addMerge` handler of `App.tsx` (lines 155-170).  `none` models the
empty selection `""`.  Note the guard passes the AUGMENTED map
`{ ...mergeMap, [mergeFrom]: mergeTo }` to `findMergeRoot`. -/
def addMerge (mergeFrom mergeTo : Option Nat) (m : MergeMap) : MergeOutcome :=
  match mergeFrom, mergeTo with
  | none, _ => .noop
  | _, none => .noop
  | some src, some dst =>
    if src = dst then .noop
    else if findMergeRoot (insertEdge m src dst) dst = src then .loopError
    else .committed (insertEdge m src dst)

/-- The `removeMerge` handler of `App.tsx` (lines 172-178): deletes the key. -/
def removeMerge (m : MergeMap) (fromAppid : Nat) : MergeMap :=
  m.filter (fun p => p.1 ≠ fromAppid)

/-- C1: the claim says `addMerge(a,b)` then `addMerge(b,a)` must fail with a
cycle error leaving the map as after the first call, and that no `addMerge`
sequence ever commits a cycle.  The code violates this: the cycle guard
resolves `to` in the map ALREADY containing the candidate edge, so the walk
from `to` runs around the would-be cycle and stops at the revisit of `to`
itself, never returning `from`; the guard therefore never fires and the
reverse merge is committed, producing the cyclic map
`{100 ↦ 200, 200 ↦ 100}` (witnessed by `stepN ... 2 100 = some 100`). -/
theorem addMerge_commits_cycle :
    addMerge (some 100) (some 200) [] = MergeOutcome.committed [(100, 200)] ∧
    addMerge (some 200) (some 100) [(100, 200)] =
      MergeOutcome.committed [(100, 200), (200, 100)] ∧
    stepN [(100, 200), (200, 100)] 2 100 = some 100 ∧
    ¬ ValidMergeMap [(100, 200), (200, 100)] := by
  decide

/-- C5 counterexample: the claim says `addMerge` referencing an id absent from
the unmerged item set (here the set with ids 100 and 200) fails and leaves the
mapping unchanged.  The code performs no membership check: with ids 999 and
888, both absent, the edge is committed. -/
theorem addMerge_unknown_id_commits :
    (999 ∉ [100, 200] ∧ 888 ∉ [100, 200]) ∧
    addMerge (some 999) (some 888) [] = MergeOutcome.committed [(999, 888)] := by
  decide

/-- C5 (amended): `addMerge` is a silent no-op, leaving the mapping untouched,
exactly when one of the selections is empty (`""`, modelled `none`) or
`from == to`; no membership check against the unmerged set is performed. -/
theorem addMerge_noop_iff (a b : Option Nat) (m : MergeMap) :
    addMerge a b m = MergeOutcome.noop ↔ a = none ∨ b = none ∨ a = b := by
  cases a with
  | none => simp [addMerge]
  | some x =>
    cases b with
    | none => simp [addMerge]
    | some y =>
      by_cases hxy : x = y
      · subst hxy; simp [addMerge]
      · simp only [addMerge, if_neg hxy]
        constructor
        · intro h
          by_cases hroot : findMergeRoot (insertEdge m x y) y = x
          · rw [if_pos hroot] at h; exact absurd h (by simp)
          · rw [if_neg hroot] at h; exact absurd h (by simp)
        · intro h
          rcases h with h | h | h <;> simp_all

/-- C5 amended-claim witness: a concrete self-merge is a no-op. -/
theorem addMerge_noop_iff_witness :
    addMerge (some 5) (some 5) [] = MergeOutcome.noop :=
  (addMerge_noop_iff (some 5) (some 5) []).mpr (Or.inr (Or.inr rfl))

/-- Number of distinct keys of `m` not yet in `seen`; the merge-root loop can
make at most this many iterations. -/
def freshKeyCount (m : MergeMap) (seen : List Nat) : Nat :=
  ((m.map Prod.fst).dedup.filter (fun k => decide (k ∉ seen))).length

lemma alookup_mem_keys {β : Type} {l : List (Nat × β)} {k : Nat} {v : β}
    (h : alookup l k = some v) : k ∈ l.map Prod.fst := by
  induction l with
  | nil => simp [alookup] at h
  | cons p t ih =>
    obtain ⟨a, b⟩ := p
    by_cases hak : a = k
    · subst hak; simp
    · simp only [alookup, if_neg hak] at h
      simp only [List.map_cons, List.mem_cons]
      exact Or.inr (ih h)

lemma filter_notmem_cons_length {K seen : List Nat} {c : Nat}
    (hK : K.Nodup) (hcK : c ∈ K) (hcs : c ∉ seen) :
    (K.filter (fun k => decide (k ∉ c :: seen))).length + 1 =
      (K.filter (fun k => decide (k ∉ seen))).length := by
  induction K with
  | nil => cases hcK
  | cons a K ih =>
    by_cases hac : a = c
    · subst hac
      have hnotK : a ∉ K := (List.nodup_cons.mp hK).1
      have h1 : decide (a ∉ a :: seen) = false := by simp
      have h2 : decide (a ∉ seen) = true := by simpa using hcs
      rw [List.filter_cons, List.filter_cons, h1, h2]
      have hfeq : K.filter (fun k => decide (k ∉ a :: seen)) =
          K.filter (fun k => decide (k ∉ seen)) := by
        apply List.filter_congr
        intro x hx
        have hxc : ¬ x = a := fun h => hnotK (h ▸ hx)
        simp [List.mem_cons, hxc]
      rw [if_neg Bool.false_ne_true, if_pos rfl, hfeq, List.length_cons]
    · have hcK2 : c ∈ K := by
        rcases List.mem_cons.mp hcK with h | h
        · exact absurd h.symm hac
        · exact h
      have ih2 := ih (List.nodup_cons.mp hK).2 hcK2
      have hhead : decide (a ∉ c :: seen) = decide (a ∉ seen) :=
        decide_eq_decide.mpr (by simp [List.mem_cons, hac])
      rw [List.filter_cons, List.filter_cons, hhead]
      by_cases hmem : a ∈ seen
      · have hd : decide (a ∉ seen) = false := by simpa using hmem
        rw [hd, if_neg Bool.false_ne_true, if_neg Bool.false_ne_true]
        exact ih2
      · have hd : decide (a ∉ seen) = true := by simpa using hmem
        rw [hd, if_pos rfl, if_pos rfl, List.length_cons, List.length_cons]
        omega

lemma freshKeyCount_cons {m : MergeMap} {seen : List Nat} {c : Nat}
    (hc : c ∈ m.map Prod.fst) (hcs : c ∉ seen) :
    freshKeyCount m (c :: seen) + 1 = freshKeyCount m seen :=
  filter_notmem_cons_length (List.nodup_dedup _) (List.mem_dedup.mpr hc) hcs

lemma rootAuxT_fst (m : MergeMap) :
    ∀ (fuel : Nat) (seen : List Nat) (cur : Nat),
      (rootAuxT m fuel seen cur).1 = rootAux m fuel seen cur := by
  intro fuel
  induction fuel with
  | zero => intro seen cur; rfl
  | succ fuel ih =>
    intro seen cur
    simp only [rootAuxT, rootAux]
    cases alookup m cur with
    | none => rfl
    | some nxt =>
      by_cases h : cur ∈ seen
      · simp [h]
      · simp [h, ih]

lemma rootAuxT_length_le (m : MergeMap) :
    ∀ (fuel : Nat) (seen : List Nat) (cur : Nat),
      (rootAuxT m fuel seen cur).2.length ≤ freshKeyCount m seen := by
  intro fuel
  induction fuel with
  | zero => intro seen cur; simp [rootAuxT]
  | succ fuel ih =>
    intro seen cur
    simp only [rootAuxT]
    cases hcur : alookup m cur with
    | none => simp
    | some nxt =>
      by_cases h : cur ∈ seen
      · simp [h]
      · simp only [if_neg h, List.length_cons]
        have hkey : cur ∈ m.map Prod.fst := alookup_mem_keys hcur
        have hcnt := freshKeyCount_cons hkey h
        have := ih (cur :: seen) nxt
        omega

lemma rootAuxT_nodup (m : MergeMap) :
    ∀ (fuel : Nat) (seen : List Nat) (cur : Nat),
      (rootAuxT m fuel seen cur).2.Nodup ∧
        ∀ x ∈ (rootAuxT m fuel seen cur).2, x ∉ seen := by
  intro fuel
  induction fuel with
  | zero => intro seen cur; simp [rootAuxT]
  | succ fuel ih =>
    intro seen cur
    simp only [rootAuxT]
    cases hcur : alookup m cur with
    | none => simp
    | some nxt =>
      by_cases h : cur ∈ seen
      · simp [h]
      · simp only [if_neg h]
        obtain ⟨hnd, hmem⟩ := ih (cur :: seen) nxt
        refine ⟨List.nodup_cons.mpr ⟨?_, hnd⟩, ?_⟩
        · intro hc
          exact (hmem cur hc) (List.mem_cons_self _ _)
        · intro x hx
          rcases List.mem_cons.mp hx with rfl | hx2
          · exact h
          · intro hxs
            exact (hmem x hx2) (List.mem_cons.mpr (Or.inr hxs))

lemma reaches_refl (m : MergeMap) (a : Nat) : Reaches m a a :=
  ⟨0, rfl⟩

lemma reaches_step {m : MergeMap} {a b c : Nat}
    (hab : alookup m a = some b) (hbc : Reaches m b c) : Reaches m a c := by
  obtain ⟨k, hk⟩ := hbc
  exact ⟨k + 1, by simp [stepN, hab, hk]⟩

lemma rootAux_reaches (m : MergeMap) :
    ∀ (fuel : Nat) (seen : List Nat) (cur : Nat),
      Reaches m cur (rootAux m fuel seen cur) := by
  intro fuel
  induction fuel with
  | zero => intro seen cur; exact reaches_refl m cur
  | succ fuel ih =>
    intro seen cur
    simp only [rootAux]
    cases hcur : alookup m cur with
    | none => exact reaches_refl m cur
    | some nxt =>
      by_cases h : cur ∈ seen
      · simp only [if_pos h]; exact reaches_refl m cur
      · simp only [if_neg h]
        exact reaches_step hcur (ih (cur :: seen) nxt)

lemma rootAux_stop (m : MergeMap) :
    ∀ (fuel : Nat) (seen : List Nat) (cur : Nat),
      freshKeyCount m seen < fuel →
        alookup m (rootAux m fuel seen cur) = none ∨
          rootAux m fuel seen cur ∈ seen ∨
          rootAux m fuel seen cur ∈ (rootAuxT m fuel seen cur).2 := by
  intro fuel
  induction fuel with
  | zero => intro seen cur h; omega
  | succ fuel ih =>
    intro seen cur hfuel
    simp only [rootAux, rootAuxT]
    cases hcur : alookup m cur with
    | none => exact Or.inl hcur
    | some nxt =>
      by_cases h : cur ∈ seen
      · simp only [if_pos h]
        exact Or.inr (Or.inl h)
      · simp only [if_neg h]
        have hkey : cur ∈ m.map Prod.fst := alookup_mem_keys hcur
        have hcnt := freshKeyCount_cons hkey h
        have hlt : freshKeyCount m (cur :: seen) < fuel := by omega
        rcases ih (cur :: seen) nxt hlt with h1 | h2 | h3
        · exact Or.inl h1
        · rcases List.mem_cons.mp h2 with h4 | h5
          · exact Or.inr (Or.inr (by simp [h4]))
          · exact Or.inr (Or.inl h5)
        · exact Or.inr (Or.inr (List.mem_cons.mpr (Or.inr h3)))

lemma freshKeyCount_nil_le (m : MergeMap) :
    freshKeyCount m [] = (m.map Prod.fst).dedup.length ∧
      freshKeyCount m [] ≤ m.length := by
  have h1 : freshKeyCount m [] = (m.map Prod.fst).dedup.length := by
    unfold freshKeyCount
    have : ((m.map Prod.fst).dedup.filter (fun k => decide (k ∉ ([] : List Nat)))) =
        (m.map Prod.fst).dedup := by
      apply List.filter_eq_self.mpr
      intro x _
      simp
    rw [this]
  refine ⟨h1, ?_⟩
  rw [h1]
  calc (m.map Prod.fst).dedup.length
      ≤ (m.map Prod.fst).length := (List.dedup_sublist _).length_le
    _ = m.length := List.length_map _ _

/-- C9: `findMergeRoot` on any mapping (cyclic ones included) makes at most
one loop iteration per distinct id keyed in the mapping, never revisits a
node (the visit trace is duplicate-free), and when it stops on a node that
still has an outgoing edge that node is one it already visited (the cycle
guard returning the current node); on a valid (acyclic) mapping it returns
the terminal id of the chain starting at the queried id: a node reachable
from it along merge edges with no outgoing edge. -/
theorem findMergeRoot_props (m : MergeMap) (a : Nat) :
    (rootTrace m a).2.length ≤ (m.map Prod.fst).dedup.length ∧
    (rootTrace m a).2.Nodup ∧
    (alookup m (findMergeRoot m a) ≠ none →
      findMergeRoot m a ∈ (rootTrace m a).2) ∧
    (ValidMergeMap m →
      alookup m (findMergeRoot m a) = none ∧
        Reaches m a (findMergeRoot m a)) := by
  obtain ⟨hnil, hle⟩ := freshKeyCount_nil_le m
  have hfuel : freshKeyCount m [] < m.length + 1 := by omega
  refine ⟨?_, ?_, ?_, ?_⟩
  · have := rootAuxT_length_le m (m.length + 1) [] a
    rw [hnil] at this
    exact this
  · exact (rootAuxT_nodup m (m.length + 1) [] a).1
  · intro hne
    rcases rootAux_stop m (m.length + 1) [] a hfuel with h1 | h2 | h3
    · exact absurd h1 hne
    · cases h2
    · simpa [findMergeRoot, rootTrace] using h3
  · intro hvalid
    refine ⟨?_, rootAux_reaches m (m.length + 1) [] a⟩
    cases ha : alookup m a with
    | none =>
      have : findMergeRoot m a = a := by
        simp [findMergeRoot, rootAux, ha]
      rw [this]
      exact ha
    | some b =>
      exact hvalid a (alookup_mem_keys ha)

/-- C9 witness: the chain `1 ↦ 2 ↦ 3` is valid, and resolving from 1 stops at
a node with no outgoing edge which is reached from 1. -/
theorem findMergeRoot_props_witness :
    ValidMergeMap [(1, 2), (2, 3)] ∧
      (alookup [(1, 2), (2, 3)] (findMergeRoot [(1, 2), (2, 3)] 1) = none ∧
        Reaches [(1, 2), (2, 3)] 1 (findMergeRoot [(1, 2), (2, 3)] 1)) :=
  ⟨by decide, (findMergeRoot_props [(1, 2), (2, 3)] 1).2.2.2 (by decide)⟩

/-- The metadata lookup built in the aggregation effect (`App.tsx` lines
345-352): keeps the first item seen per appid, upgraded in place to the first
catalog-origin (non-manual) item when the stored one is manual. -/
def metaLookup (base : List Item) : List (Nat × Item) :=
  base.foldl
    (fun acc g =>
      match alookup acc g.appid with
      | none => acc ++ [(g.appid, g)]
      | some cur =>
        if cur.manual && !g.manual then
          acc.map (fun p => if p.1 = g.appid then (g.appid, g) else p)
        else acc)
    []

/-- The in-place mutation of an existing merged entry (`App.tsx` lines
362-364): `existing.hours += g.hours; existing.manual = existing.manual ||
g.manual`. -/
def addHours (g it : Item) : Item :=
  { it with hours := it.hours + g.hours, manual := it.manual || g.manual }

/-- The freshly created merged entry (`App.tsx` lines 366-370):
`{ ...meta, hours: g.hours, manual: g.manual }`. -/
def newEntry (meta g : Item) : Item :=
  { meta with hours := g.hours, manual := g.manual }

/-- One iteration of the merge-aggregation loop (`App.tsx` lines 357-372):
resolve the item to its merge root (`root`), then either add the contributor
hours to the existing entry for that root, or create the entry from the
metadata item `metaLookup.get(root) || g` with the contributor hours. -/
def mergeStep (lk : List (Nat × Item)) (m : MergeMap) (acc : List (Nat × Item))
    (g : Item) : List (Nat × Item) :=
  match alookup acc (findMergeRoot m g.appid) with
  | some _ =>
    acc.map (fun p =>
      if p.1 = findMergeRoot m g.appid then (findMergeRoot m g.appid, addHours g p.2)
      else p)
  | none =>
    acc ++ [(findMergeRoot m g.appid,
      newEntry ((alookup lk (findMergeRoot m g.appid)).getD g) g)]

lemma mergeStep_of_some {lk : List (Nat × Item)} {m : MergeMap}
    {acc : List (Nat × Item)} {g : Item} {ex : Item}
    (hl : alookup acc (findMergeRoot m g.appid) = some ex) :
    mergeStep lk m acc g =
      acc.map (fun p =>
        if p.1 = findMergeRoot m g.appid then (findMergeRoot m g.appid, addHours g p.2)
        else p) := by
  unfold mergeStep
  rw [hl]

lemma mergeStep_of_none {lk : List (Nat × Item)} {m : MergeMap}
    {acc : List (Nat × Item)} {g : Item}
    (hl : alookup acc (findMergeRoot m g.appid) = none) :
    mergeStep lk m acc g =
      acc ++ [(findMergeRoot m g.appid,
        newEntry ((alookup lk (findMergeRoot m g.appid)).getD g) g)] := by
  unfold mergeStep
  rw [hl]

/-- The canonical merged set (the `merged` Map of `App.tsx` lines 355-374), as
the list of (root id, aggregated item) pairs in insertion order. -/
def mergedGames (base : List Item) (m : MergeMap) : List (Nat × Item) :=
  base.foldl (mergeStep (metaLookup base) m) []

/-- Aggregated hours stored for root `r`, zero when no entry exists yet. -/
def rootWeight (acc : List (Nat × Item)) (r : Nat) : Rat :=
  match alookup acc r with
  | some it => it.hours
  | none => 0

lemma alookup_eq_none_iff {β : Type} {l : List (Nat × β)} {k : Nat} :
    alookup l k = none ↔ k ∉ l.map Prod.fst := by
  induction l with
  | nil => simp [alookup]
  | cons p t ih =>
    obtain ⟨a, b⟩ := p
    by_cases hak : a = k
    · subst hak; simp [alookup]
    · simp [alookup, hak, ih, Ne.symm hak]

lemma alookup_map_update (acc : List (Nat × Item)) (root : Nat) (f : Item → Item)
    (r : Nat) :
    alookup (acc.map (fun p => if p.1 = root then (root, f p.2) else p)) r =
      if r = root then (alookup acc root).map f else alookup acc r := by
  induction acc with
  | nil => by_cases h : r = root <;> simp [alookup, h]
  | cons p t ih =>
    obtain ⟨a, b⟩ := p
    rw [List.map_cons]
    by_cases har : a = root
    · subst har
      rw [if_pos rfl]
      by_cases hr : r = a
      · subst hr
        rw [if_pos rfl]
        simp [alookup]
      · have ha : ¬ (a = r) := fun h => hr h.symm
        rw [if_neg hr]
        show alookup ((a, f b) :: t.map (fun p => if p.1 = a then (a, f p.2) else p)) r =
          alookup ((a, b) :: t) r
        rw [alookup, alookup, if_neg ha, if_neg ha, ih, if_neg hr]
    · rw [if_neg har]
      by_cases hr : a = r
      · subst hr
        rw [if_neg (fun h => har h)]
        show alookup ((a, b) :: t.map (fun p => if p.1 = root then (root, f p.2) else p)) a =
          alookup ((a, b) :: t) a
        rw [alookup, alookup, if_pos rfl, if_pos rfl]
      · show alookup ((a, b) :: t.map (fun p => if p.1 = root then (root, f p.2) else p)) r =
          if r = root then (alookup ((a, b) :: t) root).map f else alookup ((a, b) :: t) r
        rw [alookup, if_neg hr, ih]
        by_cases hroot : r = root
        · subst hroot
          rw [if_pos rfl, if_pos rfl, alookup, if_neg hr]
        · rw [if_neg hroot, if_neg hroot, alookup, if_neg hr]

lemma alookup_append_single {β : Type} (acc : List (Nat × β)) (k : Nat) (v : β)
    (r : Nat) :
    alookup (acc ++ [(k, v)]) r =
      match alookup acc r with
      | some x => some x
      | none => if k = r then some v else none := by
  induction acc with
  | nil => simp [alookup]
  | cons p t ih =>
    obtain ⟨a, b⟩ := p
    by_cases hr : a = r
    · subst hr; simp [alookup]
    · simp [alookup, hr, ih]

lemma mergeStep_keys_of_some {lk : List (Nat × Item)} {m : MergeMap}
    {acc : List (Nat × Item)} {g : Item} {ex : Item}
    (hl : alookup acc (findMergeRoot m g.appid) = some ex) :
    (mergeStep lk m acc g).map Prod.fst = acc.map Prod.fst := by
  rw [mergeStep_of_some hl, List.map_map]
  apply List.map_congr_left
  intro p _
  by_cases h : p.1 = findMergeRoot m g.appid
  · simp [Function.comp, h]
  · simp [Function.comp, h]

lemma mergeStep_rootWeight (lk : List (Nat × Item)) (m : MergeMap)
    (acc : List (Nat × Item)) (g : Item) (r : Nat) :
    rootWeight (mergeStep lk m acc g) r =
      rootWeight acc r + (if findMergeRoot m g.appid = r then g.hours else 0) := by
  cases hl : alookup acc (findMergeRoot m g.appid) with
  | some ex =>
    rw [mergeStep_of_some hl]
    unfold rootWeight
    rw [alookup_map_update]
    by_cases hr : r = findMergeRoot m g.appid
    · subst hr
      rw [if_pos rfl, hl]
      simp [addHours]
    · rw [if_neg hr, if_neg (fun h => hr h.symm)]
      simp
  | none =>
    rw [mergeStep_of_none hl]
    unfold rootWeight
    rw [alookup_append_single]
    by_cases hr : r = findMergeRoot m g.appid
    · subst hr
      rw [hl, if_pos rfl, if_pos rfl]
      simp [newEntry]
    · have hr2 : ¬ (findMergeRoot m g.appid = r) := fun h => hr h.symm
      cases halt : alookup acc r with
      | some x => simp [halt, hr2]
      | none => simp [halt, hr2]

lemma mergeStep_keys_mem (lk : List (Nat × Item)) (m : MergeMap)
    (acc : List (Nat × Item)) (g : Item) (r : Nat) :
    (r ∈ (mergeStep lk m acc g).map Prod.fst ↔
      r ∈ acc.map Prod.fst ∨ findMergeRoot m g.appid = r) := by
  cases hl : alookup acc (findMergeRoot m g.appid) with
  | some ex =>
    rw [mergeStep_keys_of_some hl]
    have hroot : findMergeRoot m g.appid ∈ acc.map Prod.fst := alookup_mem_keys hl
    constructor
    · exact Or.inl
    · rintro (h | rfl)
      · exact h
      · exact hroot
  | none =>
    rw [mergeStep_of_none hl]
    rw [List.map_append, List.mem_append]
    simp [or_comm, eq_comm]

lemma mergeStep_keys_nodup (lk : List (Nat × Item)) (m : MergeMap)
    (acc : List (Nat × Item)) (g : Item)
    (hnd : (acc.map Prod.fst).Nodup) :
    ((mergeStep lk m acc g).map Prod.fst).Nodup := by
  cases hl : alookup acc (findMergeRoot m g.appid) with
  | some ex =>
    rw [mergeStep_keys_of_some hl]
    exact hnd
  | none =>
    rw [mergeStep_of_none hl]
    rw [List.map_append]
    have hroot : findMergeRoot m g.appid ∉ acc.map Prod.fst :=
      alookup_eq_none_iff.mp hl
    simp [List.nodup_append, hnd, hroot]

lemma foldl_mergeStep_rootWeight (lk : List (Nat × Item)) (m : MergeMap)
    (l : List Item) :
    ∀ (acc : List (Nat × Item)) (r : Nat),
      rootWeight (l.foldl (mergeStep lk m) acc) r =
        rootWeight acc r +
          ((l.filter (fun g => decide (findMergeRoot m g.appid = r))).map Item.hours).sum := by
  induction l with
  | nil => intro acc r; simp
  | cons g l ih =>
    intro acc r
    rw [List.foldl_cons, ih]
    rw [mergeStep_rootWeight]
    by_cases h : findMergeRoot m g.appid = r
    · simp [List.filter_cons, h]
      ring
    · simp [List.filter_cons, h]

lemma foldl_mergeStep_keys_mem (lk : List (Nat × Item)) (m : MergeMap)
    (l : List Item) :
    ∀ (acc : List (Nat × Item)) (r : Nat),
      (r ∈ (l.foldl (mergeStep lk m) acc).map Prod.fst ↔
        r ∈ acc.map Prod.fst ∨ ∃ g ∈ l, findMergeRoot m g.appid = r) := by
  induction l with
  | nil => intro acc r; simp
  | cons g l ih =>
    intro acc r
    rw [List.foldl_cons, ih, mergeStep_keys_mem]
    constructor
    · rintro ((h | h) | ⟨g2, hg2, hr⟩)
      · exact Or.inl h
      · exact Or.inr ⟨g, List.mem_cons_self _ _, h⟩
      · exact Or.inr ⟨g2, List.mem_cons.mpr (Or.inr hg2), hr⟩
    · rintro (h | ⟨g2, hg2, hr⟩)
      · exact Or.inl (Or.inl h)
      · rcases List.mem_cons.mp hg2 with rfl | hg3
        · exact Or.inl (Or.inr hr)
        · exact Or.inr ⟨g2, hg3, hr⟩

lemma foldl_mergeStep_keys_nodup (lk : List (Nat × Item)) (m : MergeMap)
    (l : List Item) :
    ∀ (acc : List (Nat × Item)), (acc.map Prod.fst).Nodup →
      ((l.foldl (mergeStep lk m) acc).map Prod.fst).Nodup := by
  induction l with
  | nil => intro acc h; simpa using h
  | cons g l ih =>
    intro acc h
    rw [List.foldl_cons]
    exact ih _ (mergeStep_keys_nodup lk m acc g h)

/-- C2: for every input item list and valid (acyclic) merge mapping, the
canonical merged set has exactly one entry per merge-root id (its keys are
duplicate-free and are exactly the roots of the input items), and the entry
for root `r` carries hours equal to the sum of the hours of all input items
whose merge root resolves to `r`. -/
theorem mergedGames_props (base : List Item) (m : MergeMap)
    (hm : ValidMergeMap m) :
    ((mergedGames base m).map Prod.fst).Nodup ∧
    (∀ r, r ∈ (mergedGames base m).map Prod.fst ↔
      ∃ g ∈ base, findMergeRoot m g.appid = r) ∧
    (∀ r it, alookup (mergedGames base m) r = some it →
      it.hours =
        ((base.filter (fun g => decide (findMergeRoot m g.appid = r))).map
          Item.hours).sum) := by
  refine ⟨?_, ?_, ?_⟩
  · exact foldl_mergeStep_keys_nodup (metaLookup base) m base [] (by simp)
  · intro r
    rw [mergedGames, foldl_mergeStep_keys_mem]
    simp
  · intro r it hit
    have h := foldl_mergeStep_rootWeight (metaLookup base) m base [] r
    rw [← mergedGames] at h
    unfold rootWeight at h
    rw [hit] at h
    simpa [alookup] using h

/-- C2 witness: items with ids 100 (5 hours) and 200 (8 hours) under the
single edge 100 to 200 yield the single canonical entry at root 200 whose
hours are the sum 13, as the claim requires. -/
theorem mergedGames_props_witness :
    mergedGames [⟨100, "A", 5, false⟩, ⟨200, "B", 8, false⟩] [(100, 200)] =
      [(200, ⟨200, "B", 13, false⟩)] ∧
    (Item.hours ⟨200, "B", 13, false⟩ =
      ((([⟨100, "A", 5, false⟩, ⟨200, "B", 8, false⟩] : List Item).filter
        (fun g => decide (findMergeRoot [(100, 200)] g.appid = 200))).map
          Item.hours).sum) := by
  constructor
  · norm_num [mergedGames, mergeStep, metaLookup, alookup, findMergeRoot, rootAux,
      newEntry, addHours]
  · exact (mergedGames_props [⟨100, "A", 5, false⟩, ⟨200, "B", 8, false⟩] [(100, 200)]
      (by decide)).2.2 200 ⟨200, "B", 13, false⟩
      (by norm_num [mergedGames, mergeStep, metaLookup, alookup, findMergeRoot, rootAux,
        newEntry, addHours])

/-- Raw catalog record as consumed from the owned-games response
(`appid`, `name`, `playtime_forever` in minutes). -/
structure RawGame where
  appid : Nat
  name : String
  playtimeForever : Rat
  deriving DecidableEq, Repr

/-- Manual game record persisted by the user (`ManualGame` in `App.tsx`). -/
structure ManualGame where
  appid : Nat
  hours : Rat
  name : Option String
  deriving DecidableEq, Repr

/-- Conversion of raw records (`App.tsx` lines 313-329): records with a falsy
appid (0) or name ("") are dropped, minutes are converted to hours, and a
negative result is coerced to 0.  `Rat` has no non-finite values, so the
`Number.isFinite` guards of the source are vacuously true here. -/
def ownedOf (raw : List RawGame) : List Item :=
  (raw.filter (fun g => decide (g.appid ≠ 0 ∧ g.name ≠ ""))).map
    (fun g => ⟨g.appid, g.name,
      if 0 ≤ g.playtimeForever / 60 then g.playtimeForever / 60 else 0, false⟩)

/-- Conversion of manual records (`App.tsx` lines 332-339): the display name
falls back to `App <id>` when the stored name is missing or empty (falsy). -/
def manualItemsOf (manual : List ManualGame) : List Item :=
  manual.map (fun mg =>
    ⟨mg.appid,
      match mg.name with
      | some s => if s = "" then "App " ++ toString mg.appid else s
      | none => "App " ++ toString mg.appid,
      mg.hours, true⟩)

/-- The two pieces of state the aggregation effect writes
(`setUnmergedGames` and `setGames`). -/
structure AggState where
  unmergedGames : List Item
  games : List Item
  deriving DecidableEq, Repr

/-- The aggregation effect (`App.tsx` lines 309-375).  Its first statement is
`if (!rawGames.length && manualGames.length === 0) return;`: with both inputs
empty it returns early and the previous state stands; otherwise it rebuilds
the unmerged set and the canonical merged set from scratch. -/
def aggregationStep (rawGames : List RawGame) (manualGames : List ManualGame)
    (m : MergeMap) (prev : AggState) : AggState :=
  if rawGames.length = 0 ∧ manualGames.length = 0 then prev
  else
    AggState.mk (ownedOf rawGames ++ manualItemsOf manualGames)
      ((mergedGames (ownedOf rawGames ++ manualItemsOf manualGames) m).map Prod.snd)

/-- C10: with an empty raw catalog list and an empty manual list the
aggregation effect returns early: the previously computed unmerged set and
canonical merged set are left exactly as they were (they are not cleared by
the aggregation itself), for every merge mapping and every prior state. -/
theorem aggregationStep_empty_frame (m : MergeMap) (prev : AggState) :
    aggregationStep [] [] m prev = prev := by
  simp [aggregationStep]

/-- The hidden-set filter (`App.tsx` lines 382-385): the visible pool. -/
def visibleGames (games : List Item) (hiddenAppids : List Nat) : List Item :=
  games.filter (fun g => decide (g.appid ∉ hiddenAppids))

/-- The JS comparator `(a, b) => b.hours - a.hours` of the ranked selection,
read as the stable-sort precedence: `a` may stay before `b` exactly when
`b.hours ≤ a.hours`.  `Array.prototype.sort` is stable, which
`List.mergeSort` models. -/
def hoursDescLe (a b : Item) : Bool :=
  decide (b.hours ≤ a.hours)

/-- The ranked selection (`App.tsx` lines 388-392): sort the visible pool by
hours descending (stable), return the whole sorted pool when `showAll`,
otherwise its first `max(5, topN)` elements (`slice(0, Math.max(5, topN))`). -/
def selection (pool : List Item) (topN : Nat) (showAll : Bool) : List Item :=
  if showAll then pool.mergeSort hoursDescLe
  else (pool.mergeSort hoursDescLe).take (max 5 topN)

/-- Modelled from the spec: the ordering the claim asserts, weight descending
with ties broken by ascending item id. -/
def specTieLe (a b : Item) : Bool :=
  decide (b.hours < a.hours ∨ (a.hours = b.hours ∧ a.appid ≤ b.appid))

/-- Modelled from the spec: the ranked selection under the claimed
ascending-id tie-break, for comparison with the source `selection`. -/
def selectionSpec (pool : List Item) (topN : Nat) (showAll : Bool) : List Item :=
  if showAll then pool.mergeSort specTieLe
  else (pool.mergeSort specTieLe).take (max 5 topN)

/-- C4 counterexample: on a two-item pool with equal weights listed with the
larger id first, the code keeps the stable input order (id 2 before id 1),
while the claimed ascending-id tie-break would put id 1 first; the selection
the code computes differs from the claimed one. -/
theorem selection_tie_counterexample :
    selection [⟨2, "b", 7, false⟩, ⟨1, "a", 7, false⟩] 5 true =
      [⟨2, "b", 7, false⟩, ⟨1, "a", 7, false⟩] ∧
    selectionSpec [⟨2, "b", 7, false⟩, ⟨1, "a", 7, false⟩] 5 true =
      [⟨1, "a", 7, false⟩, ⟨2, "b", 7, false⟩] ∧
    selection [⟨2, "b", 7, false⟩, ⟨1, "a", 7, false⟩] 5 true ≠
      selectionSpec [⟨2, "b", 7, false⟩, ⟨1, "a", 7, false⟩] 5 true := by
  refine ⟨?_, ?_, ?_⟩
  · norm_num [selection, List.mergeSort, hoursDescLe]
  · norm_num [selectionSpec, List.mergeSort, specTieLe]
  · norm_num [selection, selectionSpec, List.mergeSort, hoursDescLe, specTieLe]

lemma hoursDescLe_trans (a b c : Item) :
    hoursDescLe a b = true → hoursDescLe b c = true → hoursDescLe a c = true := by
  unfold hoursDescLe
  intro h1 h2
  rw [decide_eq_true_eq] at h1 h2 ⊢
  exact le_trans h2 h1

lemma hoursDescLe_total (a b : Item) :
    (hoursDescLe a b || hoursDescLe b a) = true := by
  unfold hoursDescLe
  rcases le_total a.hours b.hours with h | h <;> simp [h]

/-- C4 (amended): the ranked selection is the pool stably sorted by hours
descending (ties keep their input order; no id tie-break is applied); with
`showAll` the whole sorted pool (a permutation of the pool) is returned,
otherwise exactly its first `max(5, topN)` elements, so the output length is
`min (max 5 topN) pool.length`. -/
theorem selection_props (pool : List Item) (topN : Nat) (showAll : Bool) :
    (selection pool topN showAll).Pairwise (fun a b => b.hours ≤ a.hours) ∧
    (showAll = true →
      selection pool topN showAll = pool.mergeSort hoursDescLe ∧
      (selection pool topN showAll).Perm pool) ∧
    (showAll = false →
      selection pool topN showAll = (pool.mergeSort hoursDescLe).take (max 5 topN) ∧
      (selection pool topN showAll).length = min (max 5 topN) pool.length) := by
  have hsorted : (pool.mergeSort hoursDescLe).Pairwise (fun a b => b.hours ≤ a.hours) := by
    have h := @List.sorted_mergeSort Item hoursDescLe
      hoursDescLe_trans hoursDescLe_total pool
    exact h.imp (fun hab => by
      rw [hoursDescLe, decide_eq_true_eq] at hab
      exact hab)
  refine ⟨?_, ?_, ?_⟩
  · unfold selection
    cases showAll with
    | true => simpa using hsorted
    | false =>
      simp only [Bool.false_eq_true, if_false]
      exact hsorted.sublist (List.take_sublist _ _)
  · intro h
    subst h
    refine ⟨by simp [selection], ?_⟩
    simp only [selection, if_pos rfl]
    exact List.mergeSort_perm pool hoursDescLe
  · intro h
    subst h
    refine ⟨by simp [selection], ?_⟩
    simp only [selection, Bool.false_eq_true, if_false, List.length_take]
    rw [(List.mergeSort_perm pool hoursDescLe).length_eq]

/-- C4 witness: on a pool of 10 items with `topN = 5` and `showAll = false`
the selection returns exactly 5 items. -/
theorem selection_props_witness :
    (selection
      [⟨1, "a", 10, false⟩, ⟨2, "b", 9, false⟩, ⟨3, "c", 8, false⟩,
        ⟨4, "d", 7, false⟩, ⟨5, "e", 6, false⟩, ⟨6, "f", 5, false⟩,
        ⟨7, "g", 4, false⟩, ⟨8, "h", 3, false⟩, ⟨9, "i", 2, false⟩,
        ⟨10, "j", 1, false⟩] 5 false).length = 5 := by
  have h := (selection_props
    [⟨1, "a", 10, false⟩, ⟨2, "b", 9, false⟩, ⟨3, "c", 8, false⟩,
      ⟨4, "d", 7, false⟩, ⟨5, "e", 6, false⟩, ⟨6, "f", 5, false⟩,
      ⟨7, "g", 4, false⟩, ⟨8, "h", 3, false⟩, ⟨9, "i", 2, false⟩,
      ⟨10, "j", 1, false⟩] 5 false).2.2 rfl
  simpa using h.2

/-- A positioned scatter node during the final phases of `computeNodesAsync`:
appid, radius and position, with float arithmetic read as exact `Rat`
arithmetic. -/
structure SNode where
  appid : Nat
  r : Rat
  x : Rat
  y : Rat
  deriving DecidableEq, Repr

/-- The clamp of `BubbleChart.tsx` lines 311-321, with the canvas constants
`width = 950`, `height = 720`, `outerPad = 36` of the component: each
coordinate is forced into the band keeping the circle plus the outer margin
inside the canvas. -/
def clampNode (nd : SNode) : SNode :=
  { nd with
      x := max (nd.r + 36) (min (950 - nd.r - 36) nd.x),
      y := max (nd.r + 36) (min (720 - nd.r - 36) nd.y) }

/-- Clamp applied to every node (the `nodes.forEach` of lines 312-321). -/
def clampNodes (ns : List SNode) : List SNode :=
  ns.map clampNode

/-- The overlap test of the cleanup scan (lines 330-333):
`Math.hypot(dx, dy) < a.r + b.r + pad - 0.5` with `pad = 0.9`, stated in the
equivalent squared form (the distance is nonnegative, so for a positive
threshold the comparison squares, and for a nonpositive one it is false). -/
def Overlaps (a b : SNode) : Prop :=
  0 < a.r + b.r + 9 / 10 - 1 / 2 ∧
    (a.x - b.x) ^ 2 + (a.y - b.y) ^ 2 < (a.r + b.r + 9 / 10 - 1 / 2) ^ 2

instance (a b : SNode) : Decidable (Overlaps a b) := by
  unfold Overlaps
  infer_instance

/-- All pairs `i < j` of the doubly nested scan loop, in loop order. -/
def upperPairs : List SNode → List (SNode × SNode)
  | [] => []
  | a :: t => t.map (fun b => (a, b)) ++ upperPairs t

/-- The counting loop of the scan with its early abort once the count exceeds
6 (`if (overlaps > 6) break` in both loops): the scan exists for detection,
not exact accounting. -/
def scanGo : Nat → List (SNode × SNode) → Nat
  | c, [] => c
  | c, p :: rest =>
    if 6 < c then c else scanGo (if Overlaps p.1 p.2 then c + 1 else c) rest

/-- The overlap count the cleanup scan computes (capped by the early abort). -/
def countOverlaps (ns : List SNode) : Nat :=
  scanGo 0 (upperPairs ns)

/-- The final stage of `computeNodesAsync` (`BubbleChart.tsx` lines 311-358)
after the two bounded simulation phases: clamp every node to the canvas, and
for at most 140 nodes run one extra simulation pass (`sim3`, a d3 force
simulation whose numeric behavior is modelled as an opaque function) when the
scan detects at least one overlap.  Note that neither a re-clamp nor a
re-scan follows `sim3`; its output is emitted as is. -/
def scatterFinish (sim3 : List SNode → List SNode) (ns : List SNode) : List SNode :=
  if ns.length ≤ 140 ∧ 0 < countOverlaps (clampNodes ns) then sim3 (clampNodes ns)
  else clampNodes ns

/-- The bounds the claim asserts of every emitted node: the circle plus the
outer margin lies inside the 950 by 720 canvas. -/
def InBounds (nd : SNode) : Prop :=
  nd.r + 36 ≤ nd.x ∧ nd.x ≤ 950 - nd.r - 36 ∧
    nd.r + 36 ≤ nd.y ∧ nd.y ≤ 720 - nd.r - 36

/-- Center distance of two nodes strictly below the threshold `t` (squared
form, `t` positive). -/
def CloserThan (a b : SNode) (t : Rat) : Prop :=
  0 < t ∧ (a.x - b.x) ^ 2 + (a.y - b.y) ^ 2 < t ^ 2

/-- C6 counterexample: two overlapping circles make the scan trigger the
cleanup pass, and the pass output (the extra simulation, here modelled by an
instance that drifts the blob left, as its centering and collision forces
may) is emitted without re-clamping: an emitted node violates the claimed
bounds at this concrete input. -/
theorem scatterFinish_escapes_bounds :
    ¬ (∀ nd ∈ scatterFinish (fun ls => ls.map (fun q => { q with x := q.x - 2000 }))
        [⟨1, 10, 475, 360⟩, ⟨2, 10, 475, 360⟩], InBounds nd) := by
  intro h
  have hmem : (⟨1, 10, -1525, 360⟩ : SNode) ∈
      scatterFinish (fun ls => ls.map (fun q => { q with x := q.x - 2000 }))
        [⟨1, 10, 475, 360⟩, ⟨2, 10, 475, 360⟩] := by
    norm_num [scatterFinish, clampNodes, clampNode, countOverlaps, upperPairs,
      scanGo, Overlaps]
  have h2 := (h _ hmem).1
  norm_num at h2

lemma scanGo_le (l : List (SNode × SNode)) : ∀ c, c ≤ scanGo c l := by
  induction l with
  | nil => intro c; exact le_refl c
  | cons p rest ih =>
    intro c
    rw [scanGo]
    by_cases h : 6 < c
    · rw [if_pos h]
    · rw [if_neg h]
      by_cases ho : Overlaps p.1 p.2
      · rw [if_pos ho]
        exact le_trans (Nat.le_succ c) (ih (c + 1))
      · rw [if_neg ho]
        exact ih c

lemma scanGo_zero_no_overlap (l : List (SNode × SNode)) (h : scanGo 0 l = 0) :
    ∀ p ∈ l, ¬ Overlaps p.1 p.2 := by
  induction l with
  | nil => intro p hp; cases hp
  | cons q rest ih =>
    rw [scanGo, if_neg (by omega)] at h
    by_cases ho : Overlaps q.1 q.2
    · rw [if_pos ho] at h
      have h1 : scanGo 1 rest = 0 := by simpa using h
      have := scanGo_le rest 1
      omega
    · rw [if_neg ho] at h
      intro p hp
      rcases List.mem_cons.mp hp with rfl | hp2
      · exact ho
      · exact ih h p hp2

/-- C6 (amended): after the settle phases every node is clamped into the
canvas, so whenever the cleanup pass does not run (more than 140 nodes, or no
overlap detected after clamping) every emitted node's circle plus outer
margin lies inside the canvas, given radii small enough for the clamp
interval to be nonempty; when the cleanup pass runs, its output is emitted
without re-clamping and the bound is not re-established. -/
theorem scatterFinish_bounds (sim3 : List SNode → List SNode) (ns : List SNode)
    (hnc : ¬ (ns.length ≤ 140 ∧ 0 < countOverlaps (clampNodes ns)))
    (hr : ∀ nd ∈ ns, 0 ≤ nd.r ∧ nd.r + 36 ≤ 720 - nd.r - 36) :
    ∀ nd ∈ scatterFinish sim3 ns, InBounds nd := by
  intro nd hnd
  rw [scatterFinish, if_neg hnc] at hnd
  obtain ⟨q, hq, rfl⟩ := List.mem_map.mp hnd
  obtain ⟨hr0, hr720⟩ := hr q hq
  have h950 : q.r + 36 ≤ 950 - q.r - 36 := by linarith
  unfold InBounds clampNode
  refine ⟨le_max_left _ _, ?_, le_max_left _ _, ?_⟩
  · exact max_le h950 (min_le_left _ _)
  · exact max_le hr720 (min_le_left _ _)

/-- C6 witness: the single small in-range node is emitted and lies within
the claimed bounds. -/
theorem scatterFinish_bounds_witness :
    InBounds ⟨1, 10, 100, 100⟩ := by
  have heval : scatterFinish (fun ls => ls) [⟨1, 10, 100, 100⟩] =
      [(⟨1, 10, 100, 100⟩ : SNode)] := by
    norm_num [scatterFinish, clampNodes, clampNode, countOverlaps, upperPairs, scanGo]
  exact scatterFinish_bounds (fun ls => ls) [⟨1, 10, 100, 100⟩]
    (by norm_num [countOverlaps, clampNodes, clampNode, upperPairs, scanGo])
    (by
      intro nd hnd
      rw [List.mem_singleton] at hnd
      subst hnd
      norm_num)
    ⟨1, 10, 100, 100⟩ (by rw [heval]; exact List.mem_singleton.mpr rfl)

/-- C7 counterexample: at this concrete input (two co-centered circles, below
the 140-node threshold) the cleanup pass runs, but its single extra
simulation pass (modelled here by the identity, as nothing constrains or
verifies its output) leaves a pair closer than `r_a + r_b - 1/2`: the emitted
set is not overlap-free. -/
theorem scatterFinish_overlap_counterexample :
    ¬ (∀ p ∈ upperPairs (scatterFinish (fun ls => ls)
        [⟨1, 10, 475, 360⟩, ⟨2, 10, 475, 360⟩]),
      ¬ CloserThan p.1 p.2 (p.1.r + p.2.r - 1 / 2)) := by
  intro h
  have hmem : ((⟨1, 10, 475, 360⟩ : SNode), (⟨2, 10, 475, 360⟩ : SNode)) ∈
      upperPairs (scatterFinish (fun ls => ls)
        [⟨1, 10, 475, 360⟩, ⟨2, 10, 475, 360⟩]) := by
    norm_num [scatterFinish, clampNodes, clampNode, countOverlaps, upperPairs,
      scanGo, Overlaps]
  have h2 := h _ hmem
  apply h2
  unfold CloserThan
  norm_num

/-- C7 (amended): for sets of at most 140 nodes, whenever the post-clamp scan
detects no overlapping pair the emitted set is exactly the clamped set and no
pair of emitted circles is closer than `r_a + r_b - 1/2` (the scan threshold
`r_a + r_b + 0.4` is even stricter); when an overlap is detected, one extra
bounded pass runs and its output is emitted without re-verification, so
overlap-freedom is not guaranteed by the code in that case. -/
theorem scatterFinish_no_overlap (sim3 : List SNode → List SNode)
    (ns : List SNode) (hn : ns.length ≤ 140)
    (h0 : countOverlaps (clampNodes ns) = 0) :
    scatterFinish sim3 ns = clampNodes ns ∧
    ∀ p ∈ upperPairs (scatterFinish sim3 ns),
      ¬ CloserThan p.1 p.2 (p.1.r + p.2.r - 1 / 2) := by
  have hne : ¬ (ns.length ≤ 140 ∧ 0 < countOverlaps (clampNodes ns)) := by
    rw [h0]
    simp
  refine ⟨by rw [scatterFinish, if_neg hne], ?_⟩
  intro p hp
  rw [scatterFinish, if_neg hne] at hp
  have hno := scanGo_zero_no_overlap (upperPairs (clampNodes ns)) h0 p hp
  intro hc
  apply hno
  unfold Overlaps
  unfold CloserThan at hc
  have h1 : (0 : Rat) < p.1.r + p.2.r - 1 / 2 := hc.1
  refine ⟨by linarith, ?_⟩
  calc (p.1.x - p.2.x) ^ 2 + (p.1.y - p.2.y) ^ 2
      < (p.1.r + p.2.r - 1 / 2) ^ 2 := hc.2
    _ ≤ (p.1.r + p.2.r + 9 / 10 - 1 / 2) ^ 2 := by nlinarith

/-- C7 witness: two well separated nodes pass the scan and their emitted pair
is not closer than the claimed threshold. -/
theorem scatterFinish_no_overlap_witness :
    ¬ CloserThan (⟨1, 10, 100, 100⟩ : SNode) (⟨2, 10, 400, 400⟩ : SNode)
      ((⟨1, 10, 100, 100⟩ : SNode).r + (⟨2, 10, 400, 400⟩ : SNode).r - 1 / 2) := by
  have h := (scatterFinish_no_overlap (fun ls => ls)
    [⟨1, 10, 100, 100⟩, ⟨2, 10, 400, 400⟩] (by norm_num)
    (by norm_num [countOverlaps, clampNodes, clampNode, upperPairs, scanGo,
      Overlaps])).2
  have hmem : ((⟨1, 10, 100, 100⟩ : SNode), (⟨2, 10, 400, 400⟩ : SNode)) ∈
      upperPairs (scatterFinish (fun ls => ls)
        [⟨1, 10, 100, 100⟩, ⟨2, 10, 400, 400⟩]) := by
    norm_num [scatterFinish, clampNodes, clampNode, countOverlaps, upperPairs,
      scanGo, Overlaps]
  exact h _ hmem

/-- The coercion building the sizing domain values (`BubbleChart.tsx` lines
164-166): `Number.isFinite(g.hours) && g.hours > 0 ? g.hours : 0`; `Rat` has
no non-finite values, so the isFinite guard is vacuous. -/
def sizeValue (h : Rat) : Rat :=
  if 0 < h then h else 0

/-- The per-item coercion applied when computing a radius (line 175):
`Number.isFinite(g.hours) && g.hours >= 0 ? g.hours : 0`. -/
def radiusValue (h : Rat) : Rat :=
  if 0 ≤ h then h else 0

/-- The sizing domain maximum `d3.max(values) ?? 1` (line 167): the maximum
of the coerced values, or 1 when the set is empty (`d3.max` of an empty array
is undefined). -/
def weightDomainMax (games : List Item) : Rat :=
  match games.map (fun g => sizeValue g.hours) with
  | [] => 1
  | v :: t => t.foldl max v

/-- The radius cap `Math.min(width, height) * 0.15` (line 170) with the
component constants 950 and 720; its exact value is 108. -/
def maxRadius : Rat :=
  min 950 720 * (15 / 100)

/-- The square-root scale
`d3.scaleSqrt().domain([0, maxValue]).range([6, maxR])` (line 172) applied to
a weight: `6 + (maxR - 6) * sqrt (h / maxValue)` on a nondegenerate domain;
d3 maps a degenerate domain (`maxValue = 0`) constantly onto the midpoint of
the range. -/
noncomputable def rScale (maxValue h : Rat) : Real :=
  if maxValue = 0 then (6 + (maxRadius : Real)) / 2
  else 6 + ((maxRadius : Real) - 6) * Real.sqrt ((h : Real) / (maxValue : Real))

/-- Radius assigned to an item of the sized set (lines 174-181). -/
noncomputable def radiusOf (games : List Item) (g : Item) : Real :=
  rScale (weightDomainMax games) (radiusValue g.hours)

lemma sizeValue_eq_radiusValue (h : Rat) : sizeValue h = radiusValue h := by
  unfold sizeValue radiusValue
  rcases lt_trichotomy 0 h with hlt | heq | hgt
  · rw [if_pos hlt, if_pos hlt.le]
  · rw [← heq]
    norm_num
  · rw [if_neg (by linarith), if_neg (by linarith)]

lemma sizeValue_nonneg (h : Rat) : 0 ≤ sizeValue h := by
  unfold sizeValue
  split <;> linarith

lemma radiusValue_mono {h1 h2 : Rat} (h : h1 ≤ h2) :
    radiusValue h1 ≤ radiusValue h2 := by
  unfold radiusValue
  split <;> split <;> linarith

lemma foldl_max_bounds (t : List Rat) :
    ∀ v : Rat, v ≤ t.foldl max v ∧ ∀ x ∈ t, x ≤ t.foldl max v := by
  induction t with
  | nil => intro v; exact ⟨le_refl v, by simp⟩
  | cons a t ih =>
    intro v
    rw [List.foldl_cons]
    obtain ⟨h1, h2⟩ := ih (max v a)
    refine ⟨le_trans (le_max_left v a) h1, ?_⟩
    intro x hx
    rcases List.mem_cons.mp hx with rfl | hx2
    · exact le_trans (le_max_right v x) h1
    · exact h2 x hx2

lemma foldl_max_mem (t : List Rat) :
    ∀ v : Rat, t.foldl max v = v ∨ t.foldl max v ∈ t := by
  induction t with
  | nil => intro v; exact Or.inl rfl
  | cons a t ih =>
    intro v
    rw [List.foldl_cons]
    rcases ih (max v a) with h | h
    · rw [h]
      rcases le_total v a with hva | hav
      · rw [max_eq_right hva]
        exact Or.inr (List.mem_cons_self _ _)
      · rw [max_eq_left hav]
        exact Or.inl rfl
    · exact Or.inr (List.mem_cons.mpr (Or.inr h))

lemma weightDomainMax_ge (games : List Item) :
    ∀ g ∈ games, sizeValue g.hours ≤ weightDomainMax games := by
  intro g hg
  cases games with
  | nil => cases hg
  | cons a t =>
    unfold weightDomainMax
    rw [List.map_cons]
    rcases List.mem_cons.mp hg with rfl | hg2
    · exact (foldl_max_bounds _ _).1
    · exact (foldl_max_bounds _ _).2 _ (List.mem_map_of_mem _ hg2)

lemma weightDomainMax_nonneg (games : List Item) :
    0 ≤ weightDomainMax games := by
  cases games with
  | nil => norm_num [weightDomainMax]
  | cons a t =>
    unfold weightDomainMax
    rw [List.map_cons]
    exact le_trans (sizeValue_nonneg a.hours) (foldl_max_bounds _ _).1

lemma weightDomainMax_attained (games : List Item) (hne : games ≠ []) :
    ∃ g ∈ games, weightDomainMax games = sizeValue g.hours := by
  cases games with
  | nil => exact absurd rfl hne
  | cons a t =>
    unfold weightDomainMax
    rw [List.map_cons]
    rcases foldl_max_mem (t.map (fun g => sizeValue g.hours)) (sizeValue a.hours)
      with h | h
    · exact ⟨a, List.mem_cons_self _ _, h⟩
    · obtain ⟨g, hg, hval⟩ := List.mem_map.mp h
      exact ⟨g, List.mem_cons.mpr (Or.inr hg), hval.symm⟩

lemma maxRadius_cast : (maxRadius : Real) = 108 := by
  norm_num [maxRadius]

lemma rScale_bounds {maxValue h : Rat} (hh0 : 0 ≤ h) (hhM : h ≤ maxValue) :
    6 ≤ rScale maxValue h ∧ rScale maxValue h ≤ 108 := by
  unfold rScale
  by_cases hM : maxValue = 0
  · rw [if_pos hM, maxRadius_cast]
    norm_num
  · rw [if_neg hM, maxRadius_cast]
    have hMpos : (0 : Rat) < maxValue := lt_of_le_of_ne (le_trans hh0 hhM) (Ne.symm hM)
    have hMposR : (0 : Real) < (maxValue : Real) := by exact_mod_cast hMpos
    have hx0 : (0 : Real) ≤ (h : Real) / (maxValue : Real) := by
      apply div_nonneg _ hMposR.le
      exact_mod_cast hh0
    have hx1 : (h : Real) / (maxValue : Real) ≤ 1 := by
      rw [div_le_one hMposR]
      exact_mod_cast hhM
    have hs0 : 0 ≤ Real.sqrt ((h : Real) / (maxValue : Real)) := Real.sqrt_nonneg _
    have hs1 : Real.sqrt ((h : Real) / (maxValue : Real)) ≤ 1 :=
      Real.sqrt_le_one.mpr hx1
    constructor
    · nlinarith
    · nlinarith

lemma rScale_mono {maxValue h1 h2 : Rat} (h0 : 0 ≤ h1) (h12 : h1 ≤ h2) :
    rScale maxValue h1 ≤ rScale maxValue h2 := by
  by_cases hM : maxValue = 0
  · simp only [rScale, if_pos hM]
    exact le_refl _
  · simp only [rScale, if_neg hM, maxRadius_cast]
    by_cases hMpos : 0 < maxValue
    · have hMposR : (0 : Real) < (maxValue : Real) := by exact_mod_cast hMpos
      have h12R : (h1 : Real) ≤ (h2 : Real) := by exact_mod_cast h12
      have hdiv : (h1 : Real) / (maxValue : Real) ≤ (h2 : Real) / (maxValue : Real) :=
        (div_le_div_iff_of_pos_right hMposR).mpr h12R
      have hs := Real.sqrt_le_sqrt hdiv
      linarith
    · have hMneg : (maxValue : Real) < 0 := by
        have h3 : maxValue < 0 := lt_of_le_of_ne (le_of_not_lt hMpos) hM
        exact_mod_cast h3
      have h1d : (h1 : Real) / (maxValue : Real) ≤ 0 := by
        apply div_nonpos_of_nonneg_of_nonpos _ hMneg.le
        exact_mod_cast h0
      have h2d : (h2 : Real) / (maxValue : Real) ≤ 0 := by
        apply div_nonpos_of_nonneg_of_nonpos _ hMneg.le
        have h4 : (0 : Rat) ≤ h2 := le_trans h0 h12
        exact_mod_cast h4
      rw [Real.sqrt_eq_zero_of_nonpos h1d, Real.sqrt_eq_zero_of_nonpos h2d]

/-- C8: every item of the sized set gets a radius between the minimum 6 and
`min(width, height) * 0.15 = 108`; the radius is non-decreasing in the item
weight; and the sizing domain maximum is the maximum (coerced) weight of the
current set, or 1 when the set is empty. -/
theorem sizing_props (games : List Item) :
    (∀ g ∈ games, 6 ≤ radiusOf games g ∧ radiusOf games g ≤ 108) ∧
    (∀ g1 ∈ games, ∀ g2 ∈ games, g1.hours ≤ g2.hours →
      radiusOf games g1 ≤ radiusOf games g2) ∧
    (games = [] → weightDomainMax games = 1) ∧
    (∀ g ∈ games, sizeValue g.hours ≤ weightDomainMax games) ∧
    (games ≠ [] → ∃ g ∈ games, weightDomainMax games = sizeValue g.hours) := by
  refine ⟨?_, ?_, ?_, weightDomainMax_ge games, weightDomainMax_attained games⟩
  · intro g hg
    unfold radiusOf
    apply rScale_bounds
    · unfold radiusValue
      split <;> linarith
    · rw [← sizeValue_eq_radiusValue]
      exact weightDomainMax_ge games g hg
  · intro g1 _ g2 _ h12
    unfold radiusOf
    apply rScale_mono
    · unfold radiusValue
      split <;> linarith
    · exact radiusValue_mono h12
  · intro h
    subst h
    rfl

/-- C8 witness: in the two-item set with weights 4 and 1, the domain maximum
is 4, the smaller item's radius obeys both bounds, and the radii are ordered
with the weights. -/
theorem sizing_props_witness :
    (6 ≤ radiusOf [⟨1, "a", 4, false⟩, ⟨2, "b", 1, false⟩] ⟨2, "b", 1, false⟩ ∧
      radiusOf [⟨1, "a", 4, false⟩, ⟨2, "b", 1, false⟩] ⟨2, "b", 1, false⟩ ≤ 108) ∧
    radiusOf [⟨1, "a", 4, false⟩, ⟨2, "b", 1, false⟩] ⟨2, "b", 1, false⟩ ≤
      radiusOf [⟨1, "a", 4, false⟩, ⟨2, "b", 1, false⟩] ⟨1, "a", 4, false⟩ ∧
    weightDomainMax [⟨1, "a", 4, false⟩, ⟨2, "b", 1, false⟩] = 4 := by
  have h := sizing_props [⟨1, "a", 4, false⟩, ⟨2, "b", 1, false⟩]
  refine ⟨h.1 _ (by simp), h.2.1 _ (by simp) _ (by simp) (by norm_num), ?_⟩
  norm_num [weightDomainMax, sizeValue]

/-- Truncation to 32 bits, modelling the JS `>>> 0` coercion. -/
def u32 (n : Nat) : Nat :=
  n % 4294967296

/-- `Math.imul`: the low 32 bits of the product. -/
def imul32 (x y : Nat) : Nat :=
  (x * y) % 4294967296

/-- The mulberry32 state advance `a = (a + 0x6D2B79F5) | 0`
(`BubbleChart.tsx` line 48), on the unsigned 32-bit representation. -/
def mulberryStep (a : Nat) : Nat :=
  (a + 0x6d2b79f5) % 4294967296

/-- The mulberry32 output mix (lines 49-51) applied to the advanced state:
the uint32 the closure divides by 2^32.  Signed and unsigned 32-bit values
share bit patterns, so every operation is modelled on the unsigned
representative. -/
def mulberryMix (a : Nat) : Nat :=
  Nat.xor
    (Nat.xor (u32 (imul32 (Nat.xor (imul32 (Nat.xor a (a >>> 15)) (Nat.lor 1 a))
        ((imul32 (Nat.xor a (a >>> 15)) (Nat.lor 1 a)) >>> 7))
        (Nat.lor 61 (imul32 (Nat.xor a (a >>> 15)) (Nat.lor 1 a))) +
        imul32 (Nat.xor a (a >>> 15)) (Nat.lor 1 a)))
      (imul32 (Nat.xor a (a >>> 15)) (Nat.lor 1 a)))
    ((Nat.xor (u32 (imul32 (Nat.xor (imul32 (Nat.xor a (a >>> 15)) (Nat.lor 1 a))
        ((imul32 (Nat.xor a (a >>> 15)) (Nat.lor 1 a)) >>> 7))
        (Nat.lor 61 (imul32 (Nat.xor a (a >>> 15)) (Nat.lor 1 a))) +
        imul32 (Nat.xor a (a >>> 15)) (Nat.lor 1 a)))
      (imul32 (Nat.xor a (a >>> 15)) (Nat.lor 1 a))) >>> 14)

/-- The per-item stream seed `(appid * 2654435761 + seed * 1013904223) >>> 0`
of `rngForApp` (lines 55-58); exact whenever the JS float products stay below
2^53, which holds for realistic appids and seeds. -/
def rngForAppSeed (appid seed : Nat) : Nat :=
  (appid * 2654435761 + seed * 1013904223) % 4294967296

/-- The k-th output (1-indexed) of the stream `rngForApp(appid, seed)`: the
state advanced k times, mixed and divided by 2^32 — a rational in [0, 1).
The stream depends only on the item id and the run seed by construction. -/
def rngCall (appid seed k : Nat) : Rat :=
  (mulberryMix (mulberryStep^[k] (rngForAppSeed appid seed)) : Rat) / 4294967296

/-- The golden angle `Math.PI * (3 - Math.sqrt(5))` (line 245). -/
noncomputable def goldenAngle : Real :=
  Real.pi * (3 - Real.sqrt 5)

/-- Target x coordinate of the item at index `i` of `n` (lines 252-257):
canvas center 475 plus the golden-angle spiral term with blob radius
`min(950, 720) * 0.32 = 230.4`, plus the seeded jitter
`(rng() - 0.5) * width * 0.06` (first stream output). -/
noncomputable def targetX (i n appid seed : Nat) : Real :=
  475 + Real.cos ((i : Real) * goldenAngle) *
      (230.4 * Real.sqrt (if n ≤ 1 then 0 else (i : Real) / ((n : Real) - 1))) +
    (((rngCall appid seed 1 : Rat) : Real) - 1 / 2) * 950 * (6 / 100)

/-- Target y coordinate (lines 253-259), with the second stream output. -/
noncomputable def targetY (i n appid seed : Nat) : Real :=
  360 + Real.sin ((i : Real) * goldenAngle) *
      (230.4 * Real.sqrt (if n ≤ 1 then 0 else (i : Real) / ((n : Real) - 1))) +
    (((rngCall appid seed 2 : Rat) : Real) - 1 / 2) * 720 * (6 / 100)

/-- Start x coordinate (lines 262-263): the memoized prior position when one
exists (`old?.x ?? ...` short-circuits, consuming no stream outputs), else
the target jittered with stream outputs 3 and 4. -/
noncomputable def startX (memo : Nat → Option (Rat × Rat)) (i n appid seed : Nat) : Real :=
  match memo appid with
  | some p => (p.1 : Real)
  | none =>
    targetX i n appid seed +
      (((rngCall appid seed 3 : Rat) : Real) - 1 / 2) * 950 * (18 / 100) +
      (((rngCall appid seed 4 : Rat) : Real) - 1 / 2) * 30

/-- Start y coordinate (lines 264-265), with stream outputs 5 and 6. -/
noncomputable def startY (memo : Nat → Option (Rat × Rat)) (i n appid seed : Nat) : Real :=
  match memo appid with
  | some p => (p.2 : Real)
  | none =>
    targetY i n appid seed +
      (((rngCall appid seed 5 : Rat) : Real) - 1 / 2) * 720 * (18 / 100) +
      (((rngCall appid seed 6 : Rat) : Real) - 1 / 2) * 30

/-- Everything the scatter layout derives per node before the simulation
phases (lines 247-268): the target pair and the start pair. -/
noncomputable def scatterNode (memo : Nat → Option (Rat × Rat)) (seed n i appid : Nat) :
    (Real × Real) × (Real × Real) :=
  ((targetX i n appid seed, targetY i n appid seed),
    (startX memo i n appid seed, startY memo i n appid seed))

/-- The per-item derivation mapped over the sized list (the `sized.map` of
line 247), keyed by each item's appid. -/
noncomputable def scatterNodes (memo : Nat → Option (Rat × Rat)) (seed : Nat)
    (l : List Item) : List ((Real × Real) × (Real × Real)) :=
  l.mapIdx (fun i g => scatterNode memo seed l.length i g.appid)

lemma scatterNodes_length (memo : Nat → Option (Rat × Rat)) (seed : Nat)
    (l : List Item) : (scatterNodes memo seed l).length = l.length := by
  simp [scatterNodes]

lemma cos_goldenAngle_ne_zero : Real.cos goldenAngle ≠ 0 := by
  intro hc
  rw [Real.cos_eq_zero_iff] at hc
  obtain ⟨k, hk⟩ := hc
  rw [goldenAngle] at hk
  have h3 : (3 : Real) - Real.sqrt 5 = (2 * (k : Real) + 1) / 2 :=
    mul_left_cancel₀ Real.pi_ne_zero (by rw [hk]; ring)
  have h4 : Real.sqrt 5 = 3 - (2 * (k : Real) + 1) / 2 := by linarith
  have hirr : Irrational (Real.sqrt 5) := by
    have h5 : Irrational (Real.sqrt ((5 : Nat) : Real)) :=
      Nat.Prime.irrational_sqrt (by norm_num)
    simpa using h5
  apply hirr
  refine ⟨(3 : Rat) - (2 * (k : Rat) + 1) / 2, ?_⟩
  push_cast
  linarith

/-- C3 counterexample: the claim says each item's target derivation depends
only on its id and the run seed; but the spiral term depends on the item's
index in the input collection: item 100 with seed 0 gets different target x
coordinates at index 0 of 2 and at index 1 of 2 (the difference is
`cos(goldenAngle) * 230.4`, nonzero because `goldenAngle / pi = 3 - sqrt 5`
is irrational). -/
theorem targetX_depends_on_index :
    targetX 0 2 100 0 ≠ targetX 1 2 100 0 := by
  have hA : targetX 0 2 100 0 =
      475 + (((rngCall 100 0 1 : Rat) : Real) - 1 / 2) * 950 * (6 / 100) := by
    unfold targetX
    norm_num
  have hB : targetX 1 2 100 0 =
      475 + Real.cos goldenAngle * 230.4 +
        (((rngCall 100 0 1 : Rat) : Real) - 1 / 2) * 950 * (6 / 100) := by
    unfold targetX
    norm_num
  intro h
  rw [hA, hB] at h
  have hz : Real.cos goldenAngle * 230.4 = 0 := by linarith
  rcases mul_eq_zero.mp hz with h0 | h0
  · exact cos_goldenAngle_ne_zero h0
  · norm_num at h0

/-- C3 (amended): the per-item derivation is a pure function of the item's
index, the collection length, its appid, the run seed and its memo entry:
whenever two input lists agree in length and in the appid at one position
(all other entries arbitrary), the derived target and start of that position
coincide; identical ordered invocations therefore produce identical outputs,
while the jitter stream itself depends only on (appid, run seed).  The
spiral term's dependence on index and size is exactly what the
counterexample exhibits. -/
theorem scatterNodes_pointwise (memo : Nat → Option (Rat × Rat)) (seed : Nat)
    (l1 l2 : List Item) (i : Nat) (h1 : i < l1.length) (h2 : i < l2.length)
    (hlen : l1.length = l2.length)
    (happ : (l1.get ⟨i, h1⟩).appid = (l2.get ⟨i, h2⟩).appid) :
    (scatterNodes memo seed l1).get ⟨i, by rw [scatterNodes_length]; exact h1⟩ =
      (scatterNodes memo seed l2).get ⟨i, by rw [scatterNodes_length]; exact h2⟩ := by
  simp only [List.get_eq_getElem, scatterNodes, List.getElem_mapIdx]
  rw [List.get_eq_getElem, List.get_eq_getElem] at happ
  rw [happ, hlen]

/-- C3 amended-claim witness: two single-item lists that agree only in the
appid (name, hours and manual flag differ) derive the same target and start
for that item. -/
theorem scatterNodes_pointwise_witness :
    (scatterNodes (fun _ => none) 0 [⟨100, "x", 5, false⟩]).get
        ⟨0, by rw [scatterNodes_length]; norm_num⟩ =
      (scatterNodes (fun _ => none) 0 [⟨100, "y", 7, true⟩]).get
        ⟨0, by rw [scatterNodes_length]; norm_num⟩ :=
  scatterNodes_pointwise (fun _ => none) 0 [⟨100, "x", 5, false⟩]
    [⟨100, "y", 7, true⟩] 0 (by norm_num) (by norm_num) rfl rfl

lemma insertEdge_lookup_self (m : MergeMap) (src dst : Nat) :
    alookup (insertEdge m src dst) src = some dst := by
  unfold insertEdge
  by_cases hs : (alookup m src).isSome
  · rw [if_pos hs]
    induction m with
    | nil => simp [alookup] at hs
    | cons p t ih =>
      obtain ⟨a, b⟩ := p
      rw [List.map_cons]
      by_cases hak : a = src
      · subst hak
        rw [if_pos rfl, alookup, if_pos rfl]
      · rw [if_neg hak, alookup, if_neg hak]
        rw [alookup, if_neg hak] at hs
        exact ih hs
  · rw [if_neg hs]
    have hnone : alookup m src = none := Option.not_isSome_iff_eq_none.mp hs
    rw [alookup_append_single, hnone]
    simp

lemma rootAux_avoids_src (aug : MergeMap) (src dst : Nat)
    (hedge : alookup aug src = some dst) (hne : src ≠ dst) :
    ∀ (fuel : Nat) (seen : List Nat) (cur : Nat),
      freshKeyCount aug seen < fuel →
      (dst ∈ seen ∨ cur = dst) →
      (src ∈ seen → cur = dst) →
      (cur = src → src ∉ seen) →
      (src ∈ seen → dst ∈ seen) →
      rootAux aug fuel seen cur ≠ src := by
  intro fuel
  induction fuel with
  | zero =>
    intro seen cur hf _ _ _ _
    omega
  | succ fuel ih =>
    intro seen cur hf inv0 inv1 inv2 inv3
    rw [rootAux]
    cases hcur : alookup aug cur with
    | none =>
      intro hc
      subst hc
      rw [hedge] at hcur
      cases hcur
    | some nxt =>
      show (if cur ∈ seen then cur else rootAux aug fuel (cur :: seen) nxt) ≠ src
      by_cases hmem : cur ∈ seen
      · rw [if_pos hmem]
        intro hc
        subst hc
        exact (inv2 rfl) hmem
      · rw [if_neg hmem]
        have hkey : cur ∈ aug.map Prod.fst := alookup_mem_keys hcur
        have hcnt := freshKeyCount_cons hkey hmem
        apply ih
        · omega
        · rcases inv0 with h | h
          · exact Or.inl (List.mem_cons.mpr (Or.inr h))
          · exact Or.inl (h ▸ List.mem_cons_self _ _)
        · intro hsrc
          rcases List.mem_cons.mp hsrc with h | h
          · rw [← h] at hcur
            rw [hedge] at hcur
            exact (Option.some.inj hcur).symm
          · have hcd := inv1 h
            have hds := inv3 h
            rw [hcd] at hmem
            exact absurd hds hmem
        · intro hnxt hsrcmem
          rcases List.mem_cons.mp hsrcmem with h | h
          · rw [← h] at hcur
            rw [hedge] at hcur
            exact hne ((Option.some.inj hcur).trans hnxt).symm
          · have hcd := inv1 h
            have hds := inv3 h
            rw [hcd] at hmem
            exact hmem hds
        · intro hsrc
          rcases List.mem_cons.mp hsrc with h | h
          · rcases inv0 with hd | hd
            · exact List.mem_cons.mpr (Or.inr hd)
            · exact absurd (h.trans hd) hne
          · exact List.mem_cons.mpr (Or.inr (inv3 h))

/-- The cycle guard of `addMerge` is dead code: the map handed to
`findMergeRoot` already contains the candidate edge `src -> dst`, so the walk
started at `dst` can stop only at a node with no outgoing edge (never `src`,
which has one) or at the first revisited node, which is always `dst` itself
or a later node of the chain, never `src`; hence the `loopError` outcome is
unreachable whenever `src ≠ dst`, and no merge is ever rejected as a cycle. -/
theorem addMerge_never_loopError (src dst : Nat) (m : MergeMap) (hne : src ≠ dst) :
    addMerge (some src) (some dst) m ≠ MergeOutcome.loopError := by
  show (if src = dst then MergeOutcome.noop
    else if findMergeRoot (insertEdge m src dst) dst = src then MergeOutcome.loopError
    else MergeOutcome.committed (insertEdge m src dst)) ≠ MergeOutcome.loopError
  rw [if_neg hne]
  have hedge : alookup (insertEdge m src dst) src = some dst :=
    insertEdge_lookup_self m src dst
  have hroot : findMergeRoot (insertEdge m src dst) dst ≠ src := by
    unfold findMergeRoot
    apply rootAux_avoids_src _ _ _ hedge hne
    · have h := (freshKeyCount_nil_le (insertEdge m src dst)).2
      omega
    · exact Or.inr rfl
    · intro h; cases h
    · intro _; simp
    · intro h; cases h
  rw [if_neg hroot]
  simp

end SteamBubbles
